import Mathlib

/-!
Verification development for the error-handling and generics core of
`src/rust/rust_showcase.rs`: the generic `largest` scan, the `find_item`
linear search, and the `divide` / `process_division` Result-based
error-propagation pair.  Each Rust function is embedded shallowly as a
Lean function; the panic path of `largest` is modelled as `none`, and
the `println!` side effect of `process_division` is modelled as an
explicit output trace.
-/

namespace RustShowcase

universe u

/-!
## Model of the host floating-point type

The Rust functions `divide` and `process_division` operate on `f64`
(IEEE-754 binary64).  The claims about them depend only on the IEEE
semantics of `==` (NaN compares unequal to everything, the two signed
zeros compare equal) and on the special-value rules of `/` and `*`
(any operation with a NaN operand yields NaN, signs of zeros and
infinities combine by xor).  `F64` models exactly that: NaN (payloads
collapsed into one value, as `==` cannot distinguish them), the two
infinities, the two signed zeros, and nonzero finite values carried as
exact rationals.  Comparison follows IEEE `==` exactly; division and
multiplication follow the IEEE special-value rules exactly, while the
finite-by-finite case is exact rational arithmetic (round-to-nearest
and overflow are not modelled; no claim depends on them).  The sign
argument of `inf` and `zero` is `true` for negative.
-/

inductive F64 : Type where
  | nan : F64
  | inf : Bool → F64
  | zero : Bool → F64
  | fin : Rat → F64
deriving DecidableEq, Repr

/-- The `0.0` literal of the source: positive zero. -/
def F64.pos0 : F64 := F64.zero false

/-- The `-0.0` value: negative zero. -/
def F64.neg0 : F64 := F64.zero true

/-- IEEE-754 equality `==` on binary64: NaN is unequal to everything
(itself included), `0.0 == -0.0` holds, and other values compare by
numeric value. -/
def f64Beq : F64 → F64 → Bool
  | .nan, _ => false
  | _, .nan => false
  | .inf s, .inf t => s == t
  | .inf _, _ => false
  | _, .inf _ => false
  | .zero _, .zero _ => true
  | .zero _, .fin q => decide (q = 0)
  | .fin q, .zero _ => decide (q = 0)
  | .fin q, .fin r => decide (q = r)

instance : BEq F64 := ⟨f64Beq⟩

/-- IEEE-754 division on binary64, restricted to the special-value
rules (NaN propagation, signed zeros and infinities); the
finite-by-finite case is exact rational division.  A `fin 0` operand
(never produced by the development, which uses `zero` for zeros) is
treated as the corresponding zero. -/
def f64Div : F64 → F64 → F64
  | .nan, _ => .nan
  | _, .nan => .nan
  | .inf _, .inf _ => .nan
  | .inf s, .zero t => .inf (xor s t)
  | .inf s, .fin r => .inf (xor s (decide (r < 0)))
  | .zero s, .inf t => .zero (xor s t)
  | .zero _, .zero _ => .nan
  | .zero s, .fin r => if r = 0 then .nan else .zero (xor s (decide (r < 0)))
  | .fin q, .inf t => .zero (xor (decide (q < 0)) t)
  | .fin q, .zero t => if q = 0 then .nan else .inf (xor (decide (q < 0)) t)
  | .fin q, .fin r =>
      if r = 0 then (if q = 0 then .nan else .inf (decide (q < 0)))
      else .fin (q / r)

/-- IEEE-754 multiplication on binary64, restricted to the
special-value rules; the finite-by-finite case is exact rational
multiplication. -/
def f64Mul : F64 → F64 → F64
  | .nan, _ => .nan
  | _, .nan => .nan
  | .inf s, .inf t => .inf (xor s t)
  | .inf _, .zero _ => .nan
  | .inf s, .fin r => if r = 0 then .nan else .inf (xor s (decide (r < 0)))
  | .zero _, .inf _ => .nan
  | .zero s, .zero t => .zero (xor s t)
  | .zero s, .fin r => .zero (xor s (decide (r < 0)))
  | .fin q, .inf t => if q = 0 then .nan else .inf (xor (decide (q < 0)) t)
  | .fin q, .zero t => .zero (xor (decide (q < 0)) t)
  | .fin q, .fin r => .fin (q * r)

/-- The `2.0` literal of the source. -/
def F64.two : F64 := F64.fin 2

/-!
## The embedded functions
-/

/-- Embedding of `fn divide(numerator: f64, denominator: f64) ->
Result<f64, String>`: guard `denominator == 0.0` under IEEE equality,
`Err` with the fixed message on zero, `Ok(numerator / denominator)`
otherwise. -/
def divide (numerator denominator : F64) : Except String F64 :=
  if denominator == F64.pos0 then
    Except.error "Cannot divide by zero!"
  else
    Except.ok (f64Div numerator denominator)

/-- Embedding of `fn process_division(num: f64, den: f64) ->
Result<f64, String>`.  The `?` operator returns the `Err` of `divide`
unchanged; on the `Ok` path the source prints a diagnostic line and
returns `Ok(result * 2.0)`.  The `println!` is modelled as the second
component: the list of lines printed by the call, in order. -/
def process_division (num den : F64) : Except String F64 × List String :=
  match divide num den with
  | Except.error e => (Except.error e, [])
  | Except.ok result =>
      (Except.ok (f64Mul result F64.two), ["Division successful, proceeding..."])

/-- Loop of `find_item`: walks the slice keeping the running index, in
the order of `haystack.iter().enumerate()`. -/
def find_item_go (needle : Int) : List Int → Nat → Option Nat
  | [], _ => none
  | x :: xs, idx => if x = needle then some idx else find_item_go needle xs (idx + 1)

/-- Embedding of `fn find_item(haystack: &[i32], needle: i32) ->
Option<usize>`: the index of the first element equal to `needle`, or
`None`.  `i32` values are embedded as integers; the function only
compares them for equality. -/
def find_item (haystack : List Int) (needle : Int) : Option Nat :=
  find_item_go needle haystack 0

/-- Loop of `largest`: `for item in list.iter() { if item > largest {
largest = item; } }`, with `acc` the running `largest`.  Rust
`item > largest` is `largest < item` for the strict order of the
`PartialOrd` bound. -/
def largestFold {α : Type u} [LT α] [DecidableRel ((· < ·) : α → α → Prop)]
    (acc : α) : List α → α
  | [] => acc
  | x :: xs => largestFold (if acc < x then x else acc) xs

/-- Embedding of `fn largest<T: PartialOrd>(list: &[T]) -> &T`: `none`
models the panic on the empty slice; otherwise the scan starts from
`list[0]` and runs over the whole slice (the first iteration compares
`list[0]` with itself). -/
def largest {α : Type u} [LT α] [DecidableRel ((· < ·) : α → α → Prop)] :
    List α → Option α
  | [] => none
  | x :: xs => some (largestFold x (x :: xs))

/-!
## A genuinely partial order

`Diamond` is the four-element diamond: `bot` below `left` and `right`,
both below `top`, with `left` and `right` incomparable.  It is a
lawful partial order (so a lawful Rust `PartialOrd` instance) on which
the behaviour of `largest` under incomparability can be observed.
-/

inductive Diamond : Type where
  | bot : Diamond
  | left : Diamond
  | right : Diamond
  | top : Diamond
deriving DecidableEq, Fintype, Repr

/-- The order of the diamond, as a Boolean relation. -/
def Diamond.dle : Diamond → Diamond → Bool
  | .bot, _ => true
  | _, .top => true
  | .left, .left => true
  | .right, .right => true
  | _, _ => false

instance : PartialOrder Diamond where
  le a b := Diamond.dle a b = true
  le_refl a := by cases a <;> rfl
  le_trans a b c hab hbc := by
    cases a <;> cases b <;> cases c <;> simp_all [Diamond.dle]
  le_antisymm a b hab hba := by
    cases a <;> cases b <;> simp_all [Diamond.dle]

instance : DecidableRel ((· ≤ ·) : Diamond → Diamond → Prop) :=
  fun a b => inferInstanceAs (Decidable (Diamond.dle a b = true))

instance : DecidableRel ((· < ·) : Diamond → Diamond → Prop) :=
  fun a b => decidable_of_iff (a ≤ b ∧ ¬ b ≤ a) (lt_iff_le_not_le).symm

/-!
## Theorems
-/

/-- C2: for all doubles `n`, `d` with `d != 0.0` (IEEE equality), `divide n d`
succeeds with value exactly `n / d` under the host division semantics. -/
theorem spec_C2 (n d : F64) (h : (d == F64.pos0) = false) :
    divide n d = Except.ok (f64Div n d) := by
  simp [divide, h]

theorem spec_C2_witness :
    divide (F64.fin 10) (F64.fin 2) = Except.ok (f64Div (F64.fin 10) (F64.fin 2)) ∧
    f64Div (F64.fin 10) (F64.fin 2) = F64.fin 5 :=
  ⟨spec_C2 (F64.fin 10) (F64.fin 2) (by decide), by norm_num [f64Div]⟩

/-- C3: for every double `n`, `divide n 0.0` fails with exactly the message
"Cannot divide by zero!"; the guard is exact equality with `0.0`. -/
theorem spec_C3 (n : F64) :
    divide n F64.pos0 = Except.error "Cannot divide by zero!" := rfl

/-- C4: for all doubles `n`, `d` with `d != 0.0` (IEEE equality),
`process_division n d` succeeds with value `(n / d) * 2.0`. -/
theorem spec_C4 (n d : F64) (h : (d == F64.pos0) = false) :
    (process_division n d).1 = Except.ok (f64Mul (f64Div n d) F64.two) := by
  simp [process_division, divide, h]

theorem spec_C4_witness :
    (process_division (F64.fin 20) (F64.fin 5)).1 =
      Except.ok (f64Mul (f64Div (F64.fin 20) (F64.fin 5)) F64.two) ∧
    f64Mul (f64Div (F64.fin 20) (F64.fin 5)) F64.two = F64.fin 8 :=
  ⟨spec_C4 (F64.fin 20) (F64.fin 5) (by decide), by norm_num [f64Div, f64Mul, F64.two]⟩

/-- C5: for every double `n`, `process_division n 0.0` returns exactly the
failure value `divide n 0.0` produces — propagated verbatim, no wrapping, no
message change — and that value is indeed a failure. -/
theorem spec_C5 (n : F64) :
    (process_division n F64.pos0).1 = divide n F64.pos0 ∧
    (divide n F64.pos0).isOk = false :=
  ⟨rfl, rfl⟩

/-- C6: `largest` returns no value exactly on the empty input: the `none`
result models the panic path, so `largest` panics if and only if its input
slice is empty. -/
theorem spec_C6 {α : Type u} [LT α] [DecidableRel ((· < ·) : α → α → Prop)]
    (l : List α) : largest l = none ↔ l = [] := by
  cases l <;> simp [largest]

/-- C8: `process_division` prints its diagnostic notice exactly on the
success path of the `divide` guard — the trace of a successful call is the
single notice emitted after the guard and before the return, and the trace
of a failing call is empty. -/
theorem spec_C8 (n d : F64) :
    (process_division n d).2 =
      (if (divide n d).isOk then ["Division successful, proceeding..."] else []) := by
  cases h : divide n d <;> simp [process_division, h, Except.isOk, Except.toBool]

/-- C9: the zero guard of `divide` is IEEE equality: `-0.0` compares equal
to `0.0`, so `divide n (-0.0)` fails with the divide-by-zero message, while
NaN does not compare equal to `0.0`, so `divide n NaN` succeeds and wraps
the quotient, which is itself NaN. -/
theorem spec_C9 (n : F64) :
    divide n F64.neg0 = Except.error "Cannot divide by zero!" ∧
    divide n F64.nan = Except.ok F64.nan := by
  refine ⟨rfl, ?_⟩
  cases n <;> rfl

/-- C1, counterexample: over the lawful partial order `Diamond` — a type
with an ordering comparison in the sense of the claim — `largest` applied to
the non-empty sequence `[left, right]` returns `left`, yet `left >= right`
fails, because the two elements are incomparable and the strict `>` guard
never fires.  So the returned element need not dominate every element of
the sequence. -/
theorem spec_C1_cex :
    largest [Diamond.left, Diamond.right] = some Diamond.left ∧
    ¬ (Diamond.right ≤ Diamond.left) := by
  decide

/-- Invariant of the scan loop over a linear order: either no element of
`xs` exceeds the accumulator, which is returned unchanged, or the result is
the element of `xs` at the split `xs = l1 ++ x :: l2` with everything
strictly before it strictly below it and everything after it at most it. -/
theorem largestFold_spec {α : Type u} [LinearOrder α] (xs : List α) (a : α) :
    (largestFold a xs = a ∧ ∀ s ∈ xs, s ≤ a) ∨
    (∃ l1 x l2, xs = l1 ++ x :: l2 ∧ largestFold a xs = x ∧ a < x ∧
      (∀ s ∈ l1, s < x) ∧ (∀ s ∈ l2, s ≤ x)) := by
  induction xs generalizing a with
  | nil => exact Or.inl ⟨rfl, by simp⟩
  | cons y ys ih =>
    by_cases hy : a < y
    · have hfold : largestFold a (y :: ys) = largestFold y ys := by
        simp [largestFold, hy]
      rcases ih y with ⟨heq, hall⟩ | ⟨l1, x, l2, hsplit, heq, hax, hl1, hl2⟩
      · exact Or.inr ⟨[], y, ys, by simp, by rw [hfold, heq], hy, by simp, hall⟩
      · refine Or.inr ⟨y :: l1, x, l2, by simp [hsplit], by rw [hfold, heq],
          hy.trans hax, ?_, hl2⟩
        intro s hs
        rcases List.mem_cons.mp hs with rfl | hs
        · exact hax
        · exact hl1 s hs
    · have hfold : largestFold a (y :: ys) = largestFold a ys := by
        simp [largestFold, hy]
      have hya : y ≤ a := le_of_not_lt hy
      rcases ih a with ⟨heq, hall⟩ | ⟨l1, x, l2, hsplit, heq, hax, hl1, hl2⟩
      · refine Or.inl ⟨by rw [hfold, heq], ?_⟩
        intro s hs
        rcases List.mem_cons.mp hs with rfl | hs
        · exact hya
        · exact hall s hs
      · refine Or.inr ⟨y :: l1, x, l2, by simp [hsplit], by rw [hfold, heq],
          hax, ?_, hl2⟩
        intro s hs
        rcases List.mem_cons.mp hs with rfl | hs
        · exact lt_of_le_of_lt hya hax
        · exact hl1 s hs

/-- C1, amended: over a type whose ordering comparison is total (a linear
order), `largest` on a non-empty sequence returns an element `m` of the
sequence with `m >= s` for every element `s`, and `m` is the first
occurrence of the maximum: the sequence splits as `l1 ++ m :: l2` with
every element of the prefix `l1` strictly below `m`, so no earlier
position holds the maximum and later equal elements never replace it. -/
theorem spec_C1 {α : Type u} [LinearOrder α] (l : List α) (h : l ≠ []) :
    ∃ m l1 l2, largest l = some m ∧ l = l1 ++ m :: l2 ∧
      (∀ s ∈ l1, s < m) ∧ (∀ s ∈ l, s ≤ m) := by
  obtain ⟨x, xs, rfl⟩ := List.exists_cons_of_ne_nil h
  have hstep : largestFold x (x :: xs) = largestFold x xs := by
    simp [largestFold]
  have hdef : largest (x :: xs) = some (largestFold x (x :: xs)) := rfl
  rcases largestFold_spec xs x with ⟨heq, hall⟩ | ⟨l1, y, l2, hsplit, heq, hxy, hl1, hl2⟩
  · refine ⟨x, [], xs, ?_, by simp, by simp, ?_⟩
    · rw [hdef, hstep, heq]
    · intro s hs
      rcases List.mem_cons.mp hs with rfl | hs
      · exact le_refl s
      · exact hall s hs
  · refine ⟨y, x :: l1, l2, ?_, by simp [hsplit], ?_, ?_⟩
    · rw [hdef, hstep, heq]
    · intro s hs
      rcases List.mem_cons.mp hs with rfl | hs
      · exact hxy
      · exact hl1 s hs
    · intro s hs
      rcases List.mem_cons.mp hs with rfl | hs
      · exact hxy.le
      · rw [hsplit] at hs
        rcases List.mem_append.mp hs with hs | hs
        · exact (hl1 s hs).le
        · rcases List.mem_cons.mp hs with rfl | hs
          · exact le_refl s
          · exact hl2 s hs

theorem spec_C1_witness :
    ∃ m l1 l2, largest ([34, 50, 25, 100, 65] : List Nat) = some m ∧
      [34, 50, 25, 100, 65] = l1 ++ m :: l2 ∧
      (∀ s ∈ l1, s < m) ∧ (∀ s ∈ [34, 50, 25, 100, 65], s ≤ m) :=
  spec_C1 [34, 50, 25, 100, 65] (by simp)

/-- Invariant of the `find_item` loop: starting from running index `k`, the
loop returns `some i` exactly when the list splits as `l1 ++ needle :: l2`
with no occurrence of `needle` in `l1` and `i = k + l1.length`, and returns
`none` exactly when `needle` occurs nowhere. -/
theorem find_item_go_spec (needle : Int) (l : List Int) (k : Nat) :
    (∀ i, find_item_go needle l k = some i ↔
      ∃ l1 l2, l = l1 ++ needle :: l2 ∧ needle ∉ l1 ∧ i = k + l1.length) ∧
    (find_item_go needle l k = none ↔ needle ∉ l) := by
  induction l generalizing k with
  | nil =>
    refine ⟨fun i => ?_, by simp [find_item_go]⟩
    simp [find_item_go]
  | cons x xs ih =>
    by_cases hx : x = needle
    · subst hx
      have hsome : find_item_go x (x :: xs) k = some k := by
        simp [find_item_go]
      refine ⟨fun i => ?_, by simp [hsome]⟩
      rw [hsome, Option.some.injEq]
      constructor
      · rintro rfl
        exact ⟨[], xs, by simp, by simp, by simp⟩
      · rintro ⟨l1, l2, hsplit, hmem, rfl⟩
        cases l1 with
        | nil => simp
        | cons y l1 =>
          rw [List.cons_append, List.cons.injEq] at hsplit
          exact absurd (by rw [hsplit.1]; exact List.mem_cons_self y l1) hmem
    · have hfold : find_item_go needle (x :: xs) k = find_item_go needle xs (k + 1) := by
        simp [find_item_go, hx]
      constructor
      · intro i
        rw [hfold, (ih (k + 1)).1 i]
        constructor
        · rintro ⟨l1, l2, hsplit, hmem, rfl⟩
          refine ⟨x :: l1, l2, by simp [hsplit], ?_, by simp; omega⟩
          intro hc
          rcases List.mem_cons.mp hc with hc | hc
          · exact hx hc.symm
          · exact hmem hc
        · rintro ⟨l1, l2, hsplit, hmem, rfl⟩
          cases l1 with
          | nil =>
            rw [List.nil_append, List.cons.injEq] at hsplit
            exact absurd hsplit.1 hx
          | cons y l1 =>
            rw [List.cons_append, List.cons.injEq] at hsplit
            refine ⟨l1, l2, hsplit.2, fun hc => hmem (List.mem_cons_of_mem y hc), by simp; omega⟩
      · rw [hfold, (ih (k + 1)).2]
        constructor
        · intro hmem hc
          rcases List.mem_cons.mp hc with hc | hc
          · exact hx hc.symm
          · exact hmem hc
        · intro hmem hc
          exact hmem (List.mem_cons_of_mem x hc)

/-- C10: `find_item haystack needle` returns `some i` exactly when the
slice splits as `l1 ++ needle :: l2` with `needle` absent from the prefix
`l1` and `i = l1.length` — that is, `i` is the smallest index whose element
equals the needle — and returns `none` exactly when the needle occurs
nowhere in the slice. -/
theorem spec_C10 (haystack : List Int) (needle : Int) :
    (∀ i, find_item haystack needle = some i ↔
      ∃ l1 l2, haystack = l1 ++ needle :: l2 ∧ needle ∉ l1 ∧ i = l1.length) ∧
    (find_item haystack needle = none ↔ needle ∉ haystack) := by
  have h := find_item_go_spec needle haystack 0
  refine ⟨fun i => ?_, h.2⟩
  rw [find_item, h.1 i]
  simp

end RustShowcase
